import Mathlib

/-!
Verification model of the CATS time-series cleaning pipeline
(`cats_analysis/io.py`, `cats_analysis/summary.py`,
`cats_analysis/feature_extraction.py`).

Tables are modelled as Lean lists of structure values, one structure per
row; numeric cells are `Option ℚ` (`none` stands for a missing value /
NaN); waveform cells are strings holding whitespace-separated numeric
tokens.  Each pipeline stage of `CleanTrip.clean` is a separate
definition that mirrors the corresponding Python method.
-/

namespace Cats

/-! ### Generic list helpers -/

/-- Insertion step of the ascending insertion sort used to model the
sorted group keys produced by pandas `groupby`. -/
def insertNat (a : Nat) : List Nat → List Nat
  | [] => [a]
  | b :: l => if a ≤ b then a :: b :: l else b :: insertNat a l

/-- Ascending sort of a list of timestamps; models the sorted key order
of pandas `groupby(by='timestamp')`. -/
def sortNat : List Nat → List Nat
  | [] => []
  | a :: l => insertNat a (sortNat l)

/-! ### Waveform decoding (`CleanTrip._format_wave_form_data`)

A waveform cell is a string of whitespace-separated numeric tokens,
possibly polluted with stray quote characters and the literal text
"nan".  The Python code sanitizes the cell with
`x.replace(' \"', ' ').replace('nan', '')` and parses it with
`np.fromstring(..., sep=' ')`.  Strings are modelled as `List Char`;
`replaceList` models Python `str.replace` (leftmost, non-overlapping,
no rescanning of the replacement text). -/

/-- Fuel-indexed worker for `replaceList`; the fuel only bounds the
recursion depth (one unit per consumed character) so that the function
is structurally recursive and evaluates inside the kernel.  With fuel
at least the length of the list the fuel never runs out. -/
def replaceListF (pat rep : List Char) : Nat → List Char → List Char
  | _, [] => []
  | 0, l => l
  | n + 1, c :: cs =>
      if pat.isPrefixOf (c :: cs) ∧ pat ≠ [] then
        rep ++ replaceListF pat rep n ((c :: cs).drop pat.length)
      else
        c :: replaceListF pat rep n cs

/-- Model of Python `str.replace pat rep`: replaces each non-overlapping
occurrence of `pat`, scanning left to right. -/
def replaceList (pat rep : List Char) (cs : List Char) : List Char :=
  replaceListF pat rep cs.length cs

/-- Fuel-indexed worker for `tokens`; the fuel bounds the recursion
depth so the function is structurally recursive; with fuel at least the
length of the list it never runs out. -/
def tokensF : Nat → List Char → List (List Char)
  | _, [] => []
  | 0, _ :: _ => []
  | n + 1, c :: cs =>
      if c = ' ' then tokensF n cs
      else (c :: cs.takeWhile (· ≠ ' ')) :: tokensF n (cs.dropWhile (· ≠ ' '))

/-- The whitespace-separated tokens of a character list: maximal runs of
non-space characters, in order.  Models the tokenization performed by
`np.fromstring(s, sep=' ')`. -/
def tokens (cs : List Char) : List (List Char) :=
  tokensF cs.length cs

/-- Parse an unsigned run of decimal digits into a numerator and a count
of digits consumed; `none` when the run is empty or contains a
non-digit. -/
def parseDigits : List Char → Option Nat
  | [] => none
  | [c] => if c.isDigit then some (c.toNat - '0'.toNat) else none
  | c :: cs =>
      if c.isDigit then
        (parseDigits cs).map (fun n => (c.toNat - '0'.toNat) * 10 ^ cs.length + n)
      else none

/-- Parse a decimal fraction part into a rational in `[0, 1)`. -/
def parseFrac (cs : List Char) : Option ℚ :=
  (parseDigits cs).map (fun n => (n : ℚ) / (10 : ℚ) ^ cs.length)

/-- Parse a single numeric token (optional sign, integer part, optional
dot and fraction part) as a rational; models C `strtod` on the simple
decimal tokens produced by the sensor format. -/
def parseFloat? (cs : List Char) : Option ℚ :=
  match cs with
  | '-' :: rest => (parseUnsigned rest).map (fun q => -q)
  | rest => parseUnsigned rest
where
  parseUnsigned (cs : List Char) : Option ℚ :=
    match cs.splitOn '.' with
    | [intPart] => (parseDigits intPart).map (fun n => (n : ℚ))
    | [intPart, fracPart] =>
        match parseDigits intPart, parseFrac fracPart with
        | some n, some f => some ((n : ℚ) + f)
        | _, _ => none
    | _ => none

/-- `np.fromstring` keeps the longest prefix of tokens that parse as
numbers and stops at the first malformed token. -/
def parseTokens : List (List Char) → List ℚ
  | [] => []
  | t :: ts =>
      match parseFloat? t with
      | some v => v :: parseTokens ts
      | none => []

/-- The sanitization chain applied to a waveform cell before parsing:
`x.replace(' \"', ' ').replace('nan', '')`. -/
def sanitizeWave (cs : List Char) : List Char :=
  replaceList ['n', 'a', 'n'] [] (replaceList [' ', '"'] [' '] cs)

/-- Decode one waveform cell into its numeric sequence, as
`np.fromstring(x.replace(' \"', ' ').replace('nan', ''), sep=' ')`. -/
def decodeWave (s : String) : List ℚ :=
  parseTokens (tokens (sanitizeWave s.data))

/-- One derived waveform statistic:
`getattr(np, func)(x, axis=0) if x.shape[0] > 0 else np.nan`.  The
configured numpy reduction is modelled as an arbitrary reduction
function `f`; the guard returning NaN on an empty sequence is the
modelled behaviour. -/
def applyWaveStat (f : List ℚ → ℚ) (xs : List ℚ) : Option ℚ :=
  if xs.length > 0 then some (f xs) else none

/-! ### Raw trip rows and the cleaning pipeline (`CleanTrip`) -/

/-- The raw `timestamp` cell of a trip file: either the literal marker
"Invalid Date" produced by the sensor, or a parseable timestamp whose
value is `t` seconds (what `pd.to_datetime` would return). -/
inductive RawTs where
  | invalidDate
  | valid (t : Nat)
  deriving DecidableEq, Repr

/-- Whether a raw timestamp cell is the "Invalid Date" marker. -/
def RawTs.isInvalid : RawTs → Bool
  | .invalidDate => true
  | .valid _ => false

/-- `pd.to_datetime` on a timestamp that survived
`_drop_invalid_dates`; the marker case cannot be reached after the
filter (the Python call would raise there). -/
def RawTs.toSeconds : RawTs → Nat
  | .invalidDate => 0
  | .valid t => t

/-- One row of the raw trip table (first 33 columns, headers already
normalized): `timestamp` (column 0), `catsid` (column 1), `type`
(column 2), the remaining scalar columns 3..23 (`fields`), and the
waveform string columns 24..32 (`waves`).  Numeric cells are
`Option ℚ`; `none` is NaN. -/
structure RawRow where
  timestamp : RawTs
  catsid : Option ℚ
  type : String
  fields : List (Option ℚ)
  waves : List String
  deriving DecidableEq, Repr

/-- A row after `_format_as_timeseries`: the timestamp column now holds
seconds. -/
structure TsRow where
  timestamp : Nat
  catsid : Option ℚ
  type : String
  fields : List (Option ℚ)
  waves : List String
  deriving DecidableEq, Repr

/-- A row after `_format_wave_form_data`: the waveform columns and the
intermediate decoded-array columns are dropped; the derived
`{column}_{statistic}` columns are appended after the scalar columns. -/
structure TripRow where
  timestamp : Nat
  catsid : Option ℚ
  type : String
  fields : List (Option ℚ)
  deriving DecidableEq, Repr

/-- One row of the cleaned output of `CleanTrip.clean`: the timestamp
index, the `merged_n` count, the `type` column (which the code stores
as the set of distinct event types of the group, modelled as a
duplicate-free list), and the scalar data columns. -/
structure CleanedRow where
  ts : Nat
  merged_n : Nat
  type : List String
  fields : List (Option ℚ)
  deriving DecidableEq, Repr

/-- The hardware sentinel for "no reading". -/
def missingValue : ℚ := 8388607

/-- `CleanTrip._drop_invalid_dates`: remove the rows whose timestamp
cell contains "Invalid Date". -/
def dropInvalidDates (rows : List RawRow) : List RawRow :=
  rows.filter (fun r => ¬ r.timestamp.isInvalid)

/-- `CleanTrip._format_as_timeseries`: parse the timestamp column. -/
def formatAsTimeseries (rows : List RawRow) : List TsRow :=
  rows.map (fun r =>
    { timestamp := r.timestamp.toSeconds
      catsid := r.catsid
      type := r.type
      fields := r.fields
      waves := r.waves })

/-- The derived waveform cells appended to a row by
`_format_wave_form_data`: for each waveform column in order, one cell
per configured statistic. -/
def derivedWaveCells (features : List (List ℚ → ℚ)) (waves : List String) :
    List (Option ℚ) :=
  waves.flatMap (fun w => features.map (fun f => applyWaveStat f (decodeWave w)))

/-- `CleanTrip._format_wave_form_data` on one row: decode each waveform
column, append one derived `{column}_{statistic}` cell per configured
statistic, and drop the waveform and intermediate columns. -/
def formatWaveFormRow (features : List (List ℚ → ℚ)) (r : TsRow) : TripRow :=
  { timestamp := r.timestamp
    catsid := r.catsid
    type := r.type
    fields := r.fields ++ derivedWaveCells features r.waves }

/-- `CleanTrip._replace_missing_values_with_nan` on one cell:
`df.replace(8388607.0, None)`. -/
def replaceMissing (v : Option ℚ) : Option ℚ :=
  if v = some missingValue then none else v

/-- Sentinel replacement over a whole row (the replace applies to every
column of the frame; the timestamp is temporal and the type textual, so
only the numeric cells can match). -/
def replaceMissingRow (r : TripRow) : TripRow :=
  { timestamp := r.timestamp
    catsid := replaceMissing r.catsid
    type := r.type
    fields := r.fields.map replaceMissing }

/-- The `scalar` aggregation of `_aggregate_rows`
(`a.values[len(a)-1] if len(a) > 0 else None` applied to the group
series): the value of the last row of the group, `None` for an empty
group. -/
def aggScalar (vals : List (Option ℚ)) : Option ℚ :=
  (vals.getLast?).getD none

/-- The `set` aggregation of `_aggregate_rows` (`set` applied to the
group series): the distinct values of the group.  The resulting
columns are dropped from the final table. -/
def aggSet (vals : List (Option ℚ)) : List (Option ℚ) :=
  vals.dedup

/-- The `drop_na` aggregation of `_aggregate_rows`
(`{x for x in a if x == x}`): the distinct non-missing values of the
group.  The resulting columns are dropped from the final table. -/
def aggDropNa (vals : List (Option ℚ)) : List ℚ :=
  (vals.filterMap id).dedup

/-- `CleanTrip._aggregate_rows`: group the rows by timestamp (pandas
sorts the group keys ascending); per group emit the count of non-missing
`catsid` cells (pandas `count` excludes missing values), the set of
distinct `type` values, and per scalar column the `scalar` aggregation;
the intermediate `set` and `drop_na` columns are dropped and the
`scalar` columns renamed back to the original field names. -/
def aggregateRows (rows : List TripRow) : List CleanedRow :=
  let nf := ((rows.head?).map (fun r => r.fields.length)).getD 0
  let keys := sortNat ((rows.map (fun r => r.timestamp)).dedup)
  keys.map (fun t =>
    let grp := rows.filter (fun r => r.timestamp = t)
    { ts := t
      merged_n := (grp.filterMap (fun r => r.catsid)).length
      type := (grp.map (fun r => r.type)).dedup
      fields := (List.range nf).map
        (fun j => aggScalar (grp.map (fun r => r.fields.getD j none))) })

/-- `CleanTrip.clean`: the full pipeline, in the fixed order of the
source (`_read_trip` and `_format_headers` are file I/O and header
renaming and are modelled by starting from the raw row list). -/
def clean (features : List (List ℚ → ℚ)) (raw : List RawRow) :
    List CleanedRow :=
  let df1 := dropInvalidDates raw
  let df2 := formatAsTimeseries df1
  let df3 := df2.map (formatWaveFormRow features)
  let df4 := df3.map replaceMissingRow
  aggregateRows df4

/-- The row list handed to `_aggregate_rows`: the composition of the
per-row pipeline stages of `clean`. -/
def pipelineRows (features : List (List ℚ → ℚ)) (raw : List RawRow) :
    List TripRow :=
  ((formatAsTimeseries (dropInvalidDates raw)).map
    (formatWaveFormRow features)).map replaceMissingRow

/-- The composed effect of the per-row pipeline stages on one raw row
that survives the invalid-date filter. -/
def pipeRow (features : List (List ℚ → ℚ)) (r : RawRow) : TripRow :=
  replaceMissingRow (formatWaveFormRow features
    { timestamp := r.timestamp.toSeconds
      catsid := r.catsid
      type := r.type
      fields := r.fields
      waves := r.waves })

/-! ### Resampling (`CleanTrip.resample`)

A single numeric column of the cleaned time series is modelled as a
list of `(timestamp, value)` pairs; the columns of the frame are
independent under `resample(rule).mean()` and
`interpolate(method='linear')`, so the model treats one column. -/

/-- The non-missing values of the series falling into bucket `b` of
width `iv` (pandas `mean` skips missing values). -/
def bucketVals (s : List (Nat × Option ℚ)) (iv b : Nat) : List ℚ :=
  s.filterMap (fun p => if p.1 / iv = b then p.2 else none)

/-- Arithmetic mean, or missing for an empty bucket. -/
def meanQ (xs : List ℚ) : Option ℚ :=
  if xs.length = 0 then none else some (xs.sum / (xs.length : ℚ))

/-- `self._data.resample(rule=rule).mean()`: one output row per bucket
from the first to the last bucket spanned by the index (pandas emits
the empty buckets in between, holding NaN), value = mean of the
non-missing values of the bucket. -/
def resampleMean (s : List (Nat × Option ℚ)) (iv : Nat) :
    List (Nat × Option ℚ) :=
  match s.map (fun p => p.1 / iv) with
  | [] => []
  | b :: bs =>
      let b0 := bs.foldl min b
      let b1 := bs.foldl max b
      (List.range (b1 - b0 + 1)).map
        (fun k => ((b0 + k) * iv, meanQ (bucketVals s iv (b0 + k))))

/-- The nearest non-missing entry strictly before position `i`, as a
(position, value) pair. -/
def prevValid (vs : List (Option ℚ)) (i : Nat) : Option (Nat × ℚ) :=
  (((List.range i).reverse).filterMap
    (fun j => (vs.getD j none).map (fun a => (j, a)))).head?

/-- The nearest non-missing entry strictly after position `i`, as a
(position, value) pair. -/
def nextValid (vs : List (Option ℚ)) (i : Nat) : Option (Nat × ℚ) :=
  ((List.range (vs.length - (i + 1))).filterMap
    (fun d =>
      (vs.getD (i + 1 + d) none).map (fun b => (i + 1 + d, b)))).head?

/-- One output cell of `DataFrame.interpolate(method='linear')` (the
pandas default `limit_direction='forward'`): present values are kept;
a gap bracketed by valid entries is filled linearly by position; a gap
after the last valid entry is filled with that entry's value; entries
before the first valid one stay missing. -/
def interpAt (vs : List (Option ℚ)) (i : Nat) : Option ℚ :=
  match vs.getD i none with
  | some x => some x
  | none =>
      match prevValid vs i, nextValid vs i with
      | some (j, a), some (k, b) =>
          some (a + (b - a) * (((i : ℚ) - (j : ℚ)) / ((k : ℚ) - (j : ℚ))))
      | some (_, a), none => some a
      | none, _ => none

/-- `DataFrame.interpolate(method='linear')` over one column. -/
def interpolateLinear (vs : List (Option ℚ)) : List (Option ℚ) :=
  (List.range vs.length).map (interpAt vs)

/-- `CleanTrip.resample(rule, interp_missing)` on one numeric column:
bucket means, then optionally linear interpolation. -/
def resample (s : List (Nat × Option ℚ)) (iv : Nat)
    (interpMissing : Bool) : List (Nat × Option ℚ) :=
  let d := resampleMean s iv
  if interpMissing then
    (d.map Prod.fst).zip (interpolateLinear (d.map Prod.snd))
  else d

/-! ### Trip summary statistics (`TripSummaryStatistics`) -/

/-- Ascending insertion step for rational values. -/
def insertQ (a : ℚ) : List ℚ → List ℚ
  | [] => [a]
  | b :: l => if a ≤ b then a :: b :: l else b :: insertQ a l

/-- Ascending sort of rational values (used to model pandas order
statistics). -/
def sortQ : List ℚ → List ℚ
  | [] => []
  | a :: l => insertQ a (sortQ l)

/-- pandas `quantile(q)` with its default linear interpolation over the
sorted non-missing values; missing for an empty sample. -/
def quantileQ (q : ℚ) (xs : List ℚ) : Option ℚ :=
  match sortQ xs with
  | [] => none
  | ys =>
      let n := ys.length
      let pos : ℚ := q * ((n : ℚ) - 1)
      let lo : Nat := Int.toNat ⌊pos⌋
      let frac : ℚ := pos - (lo : ℚ)
      let a := ys.getD lo 0
      let b := ys.getD (min (lo + 1) (n - 1)) 0
      some (a + (b - a) * frac)

/-- The descriptive statistics `calculate` computes for one column of
the resampled frame.  pandas `std` is an irrational square root, so the
model records its square `stdSq` (the ddof=1 sample variance); no claim
concerns the std value itself. -/
structure ColStats where
  perMissing : ℚ
  meanV : Option ℚ
  stdSq : Option ℚ
  minV : Option ℚ
  maxV : Option ℚ
  median : Option ℚ
  iqr : Option ℚ
  deriving DecidableEq, Repr

/-- Per-column statistics: `(1 - count/shape)*100`, `mean`, `std`
(squared), `min`, `max`, `quantile(0.5)` and
`quantile(0.75) - quantile(0.25)`. -/
def colStats (vals : List (Option ℚ)) : ColStats :=
  let xs := vals.filterMap id
  { perMissing := (1 - (xs.length : ℚ) / (vals.length : ℚ)) * 100
    meanV := meanQ xs
    stdSq :=
      if 2 ≤ xs.length then
        some (((xs.map (fun x => (x - xs.sum / (xs.length : ℚ)) ^ 2)).sum) /
          ((xs.length : ℚ) - 1))
      else none
    minV := (sortQ xs).head?
    maxV := (sortQ xs).getLast?
    median := quantileQ (1 / 2) xs
    iqr :=
      match quantileQ (3 / 4) xs, quantileQ (1 / 4) xs with
      | some a, some b => some (a - b)
      | _, _ => none }

/-- The cleaned time-series frame owned by a `CleanTrip`: a shared
time index and named numeric columns aligned with it. -/
structure CleanFrame where
  index : List Nat
  cols : List (String × List (Option ℚ))
  deriving DecidableEq, Repr

/-- `CleanTrip.resample` over a whole frame: every column is resampled
against the shared index; the bucket grid depends only on the index, so
the columns stay aligned. -/
def CleanFrame.resampleF (f : CleanFrame) (iv : Nat) (interp : Bool) :
    CleanFrame :=
  { index :=
      (resampleMean (f.index.map (fun t => (t, (none : Option ℚ)))) iv).map
        Prod.fst
    cols := f.cols.map
      (fun c => (c.1, (resample (f.index.zip c.2) iv interp).map Prod.snd)) }

/-- The state of a `TripSummaryStatistics` object: the cleaned trip it
wraps, `_summary` (None until `calculate` ran), the `duration`
attribute that `calculate` assigns, and `_duration`, which `__init__`
sets to -1.0 and nothing ever updates. -/
structure TripSummaryStatistics where
  cleanTrip : CleanFrame
  summary : Option (List (String × ColStats))
  durationAttr : Option Nat
  internalDuration : ℚ
  deriving DecidableEq, Repr

/-- `TripSummaryStatistics.__init__`. -/
def TripSummaryStatistics.init (trip : CleanFrame) : TripSummaryStatistics :=
  { cleanTrip := trip
    summary := none
    durationAttr := none
    internalDuration := -1 }

/-- What reading the `trip_duration` property can yield: the code's
`_get_duration` body is `return self._get_duration`, so the result is
either the bound accessor method itself or (as the spec intends) a
duration value. -/
inductive DurationRead where
  | boundMethod
  | value (d : Nat)
  deriving DecidableEq, Repr

/-- `trip_duration` / `_get_duration`: returns the accessor itself
(`return self._get_duration`), for every object state. -/
def getTripDuration (s : TripSummaryStatistics) : DurationRead :=
  DurationRead.boundMethod

/-- What reading an attribute can yield: a raised exception or a
returned (possibly None) value. -/
inductive ReadResult (α : Type) where
  | raised (msg : String)
  | returned (v : Option α)
  deriving DecidableEq

/-- `summary_table` / `_get_summary_table`: returns `self._summary`
unconditionally; it never raises. -/
def getSummaryTable (s : TripSummaryStatistics) :
    ReadResult (List (String × ColStats)) :=
  ReadResult.returned s.summary

/-- Largest element of a list of naturals (`df.index.max()`). -/
def maxN (l : List Nat) : Nat := l.foldl max 0

/-- Smallest element of a list of naturals (`df.index.min()`). -/
def minN (l : List Nat) : Nat :=
  match l with
  | [] => 0
  | a :: t => t.foldl min a

/-- `TripSummaryStatistics.calculate`: resample the cleaned trip,
assign `self.duration = df.index.max() - df.index.min()` (note: a new
`duration` attribute, not `_duration`), and store the per-column
summary table in `_summary`. -/
def TripSummaryStatistics.calculate (s : TripSummaryStatistics)
    (iv : Nat) (interpMissing : Bool) : TripSummaryStatistics :=
  let df := s.cleanTrip.resampleF iv interpMissing
  { cleanTrip := s.cleanTrip
    summary := some (df.cols.map (fun c => (c.1, colStats c.2)))
    durationAttr := some (maxN df.index - minN df.index)
    internalDuration := s.internalDuration }

/-! ### Featurization (`feature_extraction.py`)

`featurize_trip` flattens a fields-by-statistics summary frame via
`unstack` into a single row keyed by (statistic, field) pairs;
`featurize_trips` stacks such rows with pandas `concat`, whose outer
join unions the columns and fills the holes with NaN. -/

/-- A two-dimensional summary frame: row keys (the fields), column keys
(the statistics) and the cell grid. -/
structure SummaryFrame2D where
  rowKeys : List String
  colKeys : List String
  cells : List (List (Option ℚ))
  deriving DecidableEq, Repr

/-- Cell of a summary frame at row `i`, column `j`. -/
def cellAt (t : SummaryFrame2D) (i j : Nat) : Option ℚ :=
  (t.cells.getD i []).getD j none

/-- `featurize_trip`: `summary_frame.unstack()` enumerates the cells
column-major, keyed by (column, row) = (statistic, field) pairs; the
transpose at the end makes this the single feature row. -/
def featurizeTrip (t : SummaryFrame2D) :
    List ((String × String) × Option ℚ) :=
  t.colKeys.enum.flatMap (fun p =>
    t.rowKeys.enum.map (fun q => ((p.2, q.2), cellAt t q.1 p.1)))

/-- The value a feature row holds under a column key; missing when the
row does not have the key (pandas reindexing fills NaN there). -/
def rowLookup (r : List ((String × String) × Option ℚ))
    (k : String × String) : Option ℚ :=
  match r.find? (fun p => p.1 = k) with
  | some p => p.2
  | none => none

/-- The stacked feature matrix: column keys, one value row per trip,
and the index labels. -/
structure FeatureMatrix where
  cols : List (String × String)
  rows : List (List (Option ℚ))
  index : List Nat
  deriving DecidableEq, Repr

/-- `pd.DataFrame(row)` on a single feature row. -/
def matrixOfRow (r : List ((String × String) × Option ℚ)) : FeatureMatrix :=
  { cols := r.map Prod.fst
    rows := [r.map Prod.snd]
    index := [0] }

/-- `pd.concat([df_trips, row])`: outer join of the columns (existing
columns first, new ones appended), existing rows padded with NaN under
the new columns, and the new row reindexed to the joined columns. -/
def concatOuter (m : FeatureMatrix)
    (r : List ((String × String) × Option ℚ)) : FeatureMatrix :=
  let extra := (r.map Prod.fst).filter (fun k => k ∉ m.cols)
  { cols := m.cols ++ extra
    rows := m.rows.map (fun row => row ++ List.replicate extra.length none)
      ++ [(m.cols ++ extra).map (rowLookup r)]
    index := m.index ++ [0] }

/-- The accumulation loop of `featurize_trips`: `df_trips` starts as
`None` and becomes a frame on the first iteration. -/
def featurizeLoop (acc : Option FeatureMatrix) :
    List SummaryFrame2D → Option FeatureMatrix
  | [] => acc
  | t :: ts =>
      let row := featurizeTrip t
      match acc with
      | some m => featurizeLoop (some (concatOuter m row)) ts
      | none => featurizeLoop (some (matrixOfRow row)) ts

/-- `featurize_trips`: run the loop, then assign
`df_trips.index = np.arange(len(summary_frames))`.  When the input list
is empty `df_trips` is still `None` and the attribute assignment raises
`AttributeError`; the raised exception is modelled as `none`. -/
def featurizeTrips (ts : List SummaryFrame2D) : Option FeatureMatrix :=
  match featurizeLoop none ts with
  | none => none
  | some m => some { cols := m.cols, rows := m.rows, index := List.range ts.length }

/-- The empty summary frame, used as the default of positional
access. -/
def emptyFrame : SummaryFrame2D :=
  { rowKeys := [], colKeys := [], cells := [] }

/-- Specification predicate tying the accumulated concat matrix to the
trips already processed: the column keys are exactly the union of the
trips' flattened feature keys, there is one row per trip, every row is
aligned with the columns, and a row holds the missing marker under
every column key its own trip lacks. -/
def MatrixInv (m : FeatureMatrix) (ps : List SummaryFrame2D) : Prop :=
  (∀ k, k ∈ m.cols ↔ ∃ u ∈ ps, k ∈ (featurizeTrip u).map Prod.fst) ∧
  m.rows.length = ps.length ∧
  (∀ i, i < ps.length → (m.rows.getD i []).length = m.cols.length) ∧
  (∀ i, i < ps.length → ∀ j, j < m.cols.length →
    m.cols.getD j ("", "") ∉ (featurizeTrip (ps.getD i emptyFrame)).map Prod.fst →
    (m.rows.getD i []).getD j none = none)

/-! ## Helper lemmas -/

theorem mem_insertNat (x a : Nat) (l : List Nat) :
    x ∈ insertNat a l ↔ x = a ∨ x ∈ l := by
  induction l with
  | nil => simp [insertNat]
  | cons b t ih =>
      by_cases h : a ≤ b
      · simp [insertNat, h]
      · simp [insertNat, h, ih]
        tauto

theorem mem_sortNat (x : Nat) (l : List Nat) : x ∈ sortNat l ↔ x ∈ l := by
  induction l with
  | nil => simp [sortNat]
  | cons b t ih => simp [sortNat, mem_insertNat, ih]

theorem nodup_insertNat (a : Nat) (l : List Nat) (ha : a ∉ l)
    (h : l.Nodup) : (insertNat a l).Nodup := by
  induction l with
  | nil => simp [insertNat]
  | cons b t ih =>
      rcases List.nodup_cons.mp h with ⟨hbt, ht⟩
      by_cases hab : a ≤ b
      · rw [insertNat, if_pos hab]
        exact List.nodup_cons.mpr ⟨by simpa using ha, h⟩
      · rw [insertNat, if_neg hab]
        refine List.nodup_cons.mpr ⟨?_, ?_⟩
        · intro hb
          rcases (mem_insertNat b a t).mp hb with h1 | h1
          · exact ha (by simp [h1])
          · exact hbt h1
        · exact ih (fun hx => ha (List.mem_cons_of_mem _ hx)) ht

theorem nodup_sortNat (l : List Nat) (h : l.Nodup) : (sortNat l).Nodup := by
  induction l with
  | nil => simp [sortNat]
  | cons b t ih =>
      rcases List.nodup_cons.mp h with ⟨hbt, ht⟩
      exact nodup_insertNat b (sortNat t)
        (fun hx => hbt ((mem_sortNat b t).mp hx)) (ih ht)

/-- The first element of `head?`, when present, belongs to the list. -/
theorem mem_of_head?_eq_some {α : Type} {l : List α} {a : α}
    (h : l.head? = some a) : a ∈ l := by
  cases l with
  | nil => simp at h
  | cons b t =>
      simp only [List.head?_cons, Option.some.injEq] at h
      simp [h]

/-- The value retrieved by a successful `getLast?` is an element of the
list. -/
theorem mem_of_getLast?_eq_some {α : Type} {l : List α} {a : α}
    (h : l.getLast? = some a) : a ∈ l := by
  cases l with
  | nil => simp at h
  | cons b t =>
      have hne : b :: t ≠ [] := by simp
      have h' : (b :: t).getLast hne = a := by
        rwa [List.getLast?_eq_getLast (b :: t) hne, Option.some.injEq] at h
      simpa [h'] using List.getLast_mem hne

/-! ## Pipeline plumbing lemmas -/

theorem clean_eq_aggregate (features : List (List ℚ → ℚ))
    (raw : List RawRow) :
    clean features raw = aggregateRows (pipelineRows features raw) := rfl

theorem pipelineRows_eq_map (features : List (List ℚ → ℚ))
    (raw : List RawRow) :
    pipelineRows features raw
      = (dropInvalidDates raw).map (pipeRow features) := by
  simp only [pipelineRows, formatAsTimeseries, List.map_map]
  rfl

theorem pipeRow_timestamp (features : List (List ℚ → ℚ)) (r : RawRow) :
    (pipeRow features r).timestamp = r.timestamp.toSeconds := rfl

theorem pipeRow_catsid (features : List (List ℚ → ℚ)) (r : RawRow) :
    (pipeRow features r).catsid = replaceMissing r.catsid := rfl

theorem pipeRow_type (features : List (List ℚ → ℚ)) (r : RawRow) :
    (pipeRow features r).type = r.type := rfl

/-- A raw row passes the invalid-date filter and parses to second `t`
exactly when its timestamp cell is the parseable timestamp `t`. -/
theorem survives_iff_valid (r : RawRow) (t : Nat) :
    (¬ r.timestamp.isInvalid = true ∧ r.timestamp.toSeconds = t)
      ↔ r.timestamp = RawTs.valid t := by
  cases h : r.timestamp with
  | invalidDate => simp [RawTs.isInvalid]
  | valid u => simp [RawTs.isInvalid, RawTs.toSeconds]

/-- The timestamp index of the aggregated table: the sorted distinct
timestamps of the incoming rows. -/
theorem aggregateRows_map_ts (rows : List TripRow) :
    (aggregateRows rows).map (fun c => c.ts)
      = sortNat ((rows.map (fun r => r.timestamp)).dedup) := by
  unfold aggregateRows
  rw [List.map_map]
  exact List.map_id'' (fun x => rfl) _

/-- Membership of a raw row in the invalid-date filter output. -/
theorem mem_dropInvalidDates (raw : List RawRow) (r : RawRow) :
    r ∈ dropInvalidDates raw ↔ r ∈ raw ∧ ¬ r.timestamp.isInvalid = true := by
  simp [dropInvalidDates]

/-! ## C1 -/

/-- C1: for every raw trip table, the cleaned output of
`CleanTrip.clean` has exactly one row per distinct valid timestamp: the
timestamp index of the cleaned table contains no duplicates, and a
timestamp appears in it exactly when some raw row carries that valid
timestamp. -/
theorem clean_one_row_per_valid_timestamp
    (features : List (List ℚ → ℚ)) (raw : List RawRow) :
    (((clean features raw).map (fun c => c.ts)).Nodup) ∧
    (∀ t : Nat, t ∈ (clean features raw).map (fun c => c.ts)
      ↔ ∃ r ∈ raw, r.timestamp = RawTs.valid t) := by
  constructor
  · rw [clean_eq_aggregate, aggregateRows_map_ts]
    exact nodup_sortNat _ (List.nodup_dedup _)
  · intro t
    rw [clean_eq_aggregate, aggregateRows_map_ts, mem_sortNat, List.mem_dedup,
      pipelineRows_eq_map]
    simp only [List.map_map, List.mem_map, Function.comp]
    constructor
    · rintro ⟨r, hr, hts⟩
      rcases (mem_dropInvalidDates raw r).mp hr with ⟨hraw, hinv⟩
      refine ⟨r, hraw, ?_⟩
      exact (survives_iff_valid r t).mp
        ⟨hinv, by simpa [pipeRow_timestamp] using hts⟩
    · rintro ⟨r, hr, hts⟩
      refine ⟨r, ?_, ?_⟩
      · exact (mem_dropInvalidDates raw r).mpr
          ⟨hr, ((survives_iff_valid r t).mpr hts).1⟩
      · simpa [pipeRow_timestamp] using ((survives_iff_valid r t).mpr hts).2

/-! ## C4 -/

/-- Sentinel replacement can never leave the sentinel in a cell. -/
theorem replaceMissing_ne_sentinel (v : Option ℚ) :
    replaceMissing v ≠ some missingValue := by
  unfold replaceMissing
  by_cases h : v = some missingValue <;> simp [h]

/-- Indexing into a sentinel-replaced column list never yields the
sentinel. -/
theorem getD_map_replaceMissing (l : List (Option ℚ)) (j : Nat) :
    (l.map replaceMissing).getD j none ≠ some missingValue := by
  induction l generalizing j with
  | nil => simp
  | cons a t ih =>
      cases j with
      | zero => simpa using replaceMissing_ne_sentinel a
      | succ n => simpa using ih n

/-- C4: the sentinel 8388607.0 does not occur in any scalar field of the
cleaned output of `CleanTrip.clean`; every occurrence was replaced by
the missing marker before aggregation, and aggregation only selects
replaced values. -/
theorem clean_no_sentinel (features : List (List ℚ → ℚ))
    (raw : List RawRow) :
    ∀ c ∈ clean features raw, ∀ v ∈ c.fields, v ≠ some (8388607 : ℚ) := by
  have hmv : missingValue = (8388607 : ℚ) := rfl
  intro c hc v hv
  rw [clean_eq_aggregate] at hc
  unfold aggregateRows at hc
  rcases List.mem_map.mp hc with ⟨t, ht, rfl⟩
  simp only [List.mem_map] at hv
  rcases hv with ⟨j, hj, rfl⟩
  rw [← hmv]
  unfold aggScalar
  cases hlast :
      (((pipelineRows features raw).filter
        (fun r => r.timestamp = t)).map
          (fun r => r.fields.getD j none)).getLast? with
  | none => simp [hlast]
  | some w =>
      rw [Option.getD_some]
      have hw := mem_of_getLast?_eq_some hlast
      rcases List.mem_map.mp hw with ⟨r, hr, rfl⟩
      have hr2 : r ∈ pipelineRows features raw := List.mem_of_mem_filter hr
      rw [pipelineRows_eq_map] at hr2
      rcases List.mem_map.mp hr2 with ⟨r0, hr0, rfl⟩
      exact getD_map_replaceMissing (r0.fields ++ derivedWaveCells features r0.waves) j

/-- Witness for C4 at a concrete trip: a raw table holding the sentinel
in a field yields a cleaned row whose fields are sentinel-free. -/
theorem clean_no_sentinel_witness :
    ((⟨5, 1, ["a"], [none, some 2]⟩ : CleanedRow)
        ∈ clean [] [⟨RawTs.valid 5, some 1, "a", [some 8388607, some 2], []⟩]) ∧
    (∀ v ∈ (⟨5, 1, ["a"], [none, some 2]⟩ : CleanedRow).fields,
        v ≠ some (8388607 : ℚ)) :=
  ⟨by decide,
    clean_no_sentinel []
      [⟨RawTs.valid 5, some 1, "a", [some 8388607, some 2], []⟩]
      ⟨5, 1, ["a"], [none, some 2]⟩ (by decide)⟩

/-! ## C8 -/

/-- Length of a `filterMap`, as a count of successes. -/
theorem length_filterMap_eq_countP {α β : Type} (f : α → Option β)
    (l : List α) :
    (l.filterMap f).length = l.countP (fun a => (f a).isSome) := by
  induction l with
  | nil => simp
  | cons a t ih =>
      cases h : f a <;>
        simp [List.filterMap_cons, h, ih, List.countP_cons]

/-- C8 counterexample: two raw rows share timestamp 5 and both survive
invalid-date removal, but one carries the sentinel catsid, so the
cleaned `merged_n` is 1, not the raw row count 2 — pandas `count`
excludes missing values. -/
theorem merged_n_counterexample :
    ((clean [] [⟨RawTs.valid 5, some 8388607, "a", [], []⟩,
                ⟨RawTs.valid 5, some 1, "a", [], []⟩]).map
        (fun c => c.merged_n) = [1]) ∧
    (((dropInvalidDates
          [⟨RawTs.valid 5, some 8388607, "a", [], []⟩,
           ⟨RawTs.valid 5, some 1, "a", [], []⟩]).filter
        (fun r => r.timestamp.toSeconds = 5)).length = 2) := by
  constructor <;> decide

/-- C8 amended: in the cleaned output, `merged_n` equals the number of
raw rows that survived invalid-date removal, share the row's timestamp,
and still have a non-missing `catsid` after sentinel replacement. -/
theorem merged_n_counts_nonmissing_catsid (features : List (List ℚ → ℚ))
    (raw : List RawRow) :
    ∀ c ∈ clean features raw,
      c.merged_n = (raw.filter (fun r =>
        r.timestamp = RawTs.valid c.ts ∧ replaceMissing r.catsid ≠ none)).length := by
  intro c hc
  rw [clean_eq_aggregate] at hc
  unfold aggregateRows at hc
  rcases List.mem_map.mp hc with ⟨t, ht, rfl⟩
  show (List.filterMap (fun r => r.catsid)
      ((pipelineRows features raw).filter
        (fun r => r.timestamp = t))).length = _
  rw [length_filterMap_eq_countP, List.countP_filter, pipelineRows_eq_map,
    List.countP_map, ← List.countP_eq_length_filter]
  unfold dropInvalidDates
  rw [List.countP_filter]
  refine List.countP_congr ?_
  intro r hr
  simp only [Function.comp, Bool.and_eq_true, decide_eq_true_eq,
    Option.isSome_iff_ne_none, pipeRow_catsid, pipeRow_timestamp]
  constructor
  · rintro ⟨⟨hsome, hts⟩, hinv⟩
    exact ⟨(survives_iff_valid r t).mp ⟨by simpa using hinv, hts⟩, hsome⟩
  · rintro ⟨hvalid, hsome⟩
    rcases (survives_iff_valid r t).mpr hvalid with ⟨hinv, hts⟩
    exact ⟨⟨hsome, hts⟩, by simpa using hinv⟩

/-- Witness for the amended C8 at a concrete trip. -/
theorem merged_n_counts_nonmissing_catsid_witness :
    ((⟨5, 1, ["a"], []⟩ : CleanedRow)
        ∈ clean [] [⟨RawTs.valid 5, some 8388607, "a", [], []⟩,
                    ⟨RawTs.valid 5, some 1, "a", [], []⟩]) ∧
    (⟨5, 1, ["a"], []⟩ : CleanedRow).merged_n
      = (([⟨RawTs.valid 5, some 8388607, "a", [], []⟩,
           ⟨RawTs.valid 5, some 1, "a", [], []⟩] : List RawRow).filter
          (fun r => r.timestamp = RawTs.valid 5 ∧ replaceMissing r.catsid ≠ none)).length :=
  ⟨by decide,
    merged_n_counts_nonmissing_catsid []
      [⟨RawTs.valid 5, some 8388607, "a", [], []⟩,
       ⟨RawTs.valid 5, some 1, "a", [], []⟩]
      ⟨5, 1, ["a"], []⟩ (by decide)⟩

/-! ## C9 -/

/-- The timestamp group of the aggregation input, expressed over the raw
table: the pipeline image of the raw rows carrying that valid
timestamp. -/
theorem filter_pipeline_eq (features : List (List ℚ → ℚ))
    (raw : List RawRow) (t : Nat) :
    (pipelineRows features raw).filter (fun r => r.timestamp = t)
      = (raw.filter (fun r => r.timestamp = RawTs.valid t)).map
          (pipeRow features) := by
  rw [pipelineRows_eq_map, List.map_filter]
  congr 1
  unfold dropInvalidDates
  rw [List.filter_filter]
  refine List.filter_congr' ?_
  intro a ha
  cases h : a.timestamp with
  | invalidDate =>
      simp [Function.comp, pipeRow_timestamp, h, RawTs.isInvalid]
  | valid u =>
      simp [Function.comp, pipeRow_timestamp, h, RawTs.isInvalid,
        RawTs.toSeconds]

/-- C9 counterexample: two raw rows at one timestamp with distinct event
types produce a cleaned row whose `type` field is the two-element set of
those types — the set IS materialized in the final table, because the
column drops in `_aggregate_rows` only scan `df_agg.columns[2:]` and the
`type` column sits at position 1. -/
theorem cleaned_type_set_counterexample :
    ((clean [] [⟨RawTs.valid 7, some 1, "a", [], []⟩,
                ⟨RawTs.valid 7, some 2, "b", [], []⟩]).map
        (fun c => c.type) = [["a", "b"]]) ∧
    (["a", "b"] : List String).length = 2 := by
  constructor <;> decide

/-- C9 amended: the `type` field of every cleaned row IS materialized as
the set of distinct event types of the raw rows sharing that timestamp;
it is never collapsed to a scalar. -/
theorem cleaned_type_is_distinct_type_set (features : List (List ℚ → ℚ))
    (raw : List RawRow) :
    ∀ c ∈ clean features raw,
      c.type = ((raw.filter (fun r => r.timestamp = RawTs.valid c.ts)).map
        (fun r => r.type)).dedup := by
  intro c hc
  rw [clean_eq_aggregate] at hc
  unfold aggregateRows at hc
  rcases List.mem_map.mp hc with ⟨t, ht, rfl⟩
  show (((pipelineRows features raw).filter
        (fun r => r.timestamp = t)).map (fun r => r.type)).dedup
      = ((raw.filter (fun r => r.timestamp = RawTs.valid t)).map
        (fun r => r.type)).dedup
  rw [filter_pipeline_eq, List.map_map]
  congr 1

/-- Witness for the amended C9 at a concrete trip. -/
theorem cleaned_type_is_distinct_type_set_witness :
    ((⟨7, 2, ["a", "b"], []⟩ : CleanedRow)
        ∈ clean [] [⟨RawTs.valid 7, some 1, "a", [], []⟩,
                    ⟨RawTs.valid 7, some 2, "b", [], []⟩]) ∧
    (⟨7, 2, ["a", "b"], []⟩ : CleanedRow).type
      = ((([⟨RawTs.valid 7, some 1, "a", [], []⟩,
            ⟨RawTs.valid 7, some 2, "b", [], []⟩] : List RawRow).filter
          (fun r => r.timestamp = RawTs.valid 7)).map
            (fun r => r.type)).dedup :=
  ⟨by decide,
    cleaned_type_is_distinct_type_set []
      [⟨RawTs.valid 7, some 1, "a", [], []⟩,
       ⟨RawTs.valid 7, some 2, "b", [], []⟩]
      ⟨7, 2, ["a", "b"], []⟩ (by decide)⟩

/-! ## C2 -/

/-- C2 (code bug): after `calculate` has run and stored the 60-second
duration in the `duration` attribute, reading the `trip_duration`
property still yields the bound `_get_duration` accessor itself
(`return self._get_duration`), never a duration value. -/
theorem trip_duration_returns_accessor :
    (getTripDuration ((TripSummaryStatistics.init
        ⟨[0, 60], [("speed", [some 1, some 2])]⟩).calculate 30 false)
      = DurationRead.boundMethod) ∧
    (((TripSummaryStatistics.init
        ⟨[0, 60], [("speed", [some 1, some 2])]⟩).calculate 30 false).durationAttr
      = some 60) ∧
    (∀ d : Nat, getTripDuration ((TripSummaryStatistics.init
        ⟨[0, 60], [("speed", [some 1, some 2])]⟩).calculate 30 false)
      ≠ DurationRead.value d) := by
  refine ⟨rfl, by decide, ?_⟩
  intro d h
  exact nomatch h

/-! ## C3 -/

/-- C3 (code bug): on an empty input list the accumulator of
`featurize_trips` is still None when `df_trips.index` is assigned, so
the call raises (modelled as `none`) instead of returning an empty
matrix; a one-element list does yield a single-row matrix. -/
theorem featurize_trips_empty_and_singleton :
    (featurizeTrips [] = none) ∧
    (∀ t : SummaryFrame2D, ∃ m, featurizeTrips [t] = some m ∧
      m.rows.length = 1) := by
  refine ⟨rfl, ?_⟩
  intro t
  exact ⟨⟨(featurizeTrip t).map Prod.fst, [(featurizeTrip t).map Prod.snd],
    List.range 1⟩, rfl, rfl⟩

/-! ## C5 -/

/-- C5 counterexample: reading the summary table before `calculate` has
run does not surface an uninitialized-state error; the getter silently
returns the stored None placeholder. -/
theorem summary_read_before_calculate_counterexample :
    (getSummaryTable (TripSummaryStatistics.init
        ⟨[0], [("speed", [some 1])]⟩) = ReadResult.returned none) ∧
    (∀ msg : String, getSummaryTable (TripSummaryStatistics.init
        ⟨[0], [("speed", [some 1])]⟩) ≠ ReadResult.raised msg) := by
  exact ⟨rfl, fun msg h => nomatch h⟩

/-- C5 amended: reading `summary_table` before `calculate` returns the
uninitialized None placeholder and raises no error. -/
theorem summary_read_uninitialized_returns_none (trip : CleanFrame) :
    getSummaryTable (TripSummaryStatistics.init trip)
      = ReadResult.returned none := rfl

/-! ## C6 -/

/-- The fuel of `tokensF` is irrelevant once it covers the list
length. -/
theorem tokensF_fuel :
    ∀ (n m : Nat) (cs : List Char), cs.length ≤ n → cs.length ≤ m →
      tokensF n cs = tokensF m cs := by
  intro n
  induction n with
  | zero =>
      intro m cs h1 h2
      rw [List.length_eq_zero.mp (Nat.le_zero.mp h1)]
      cases m <;> rfl
  | succ n ih =>
      intro m cs h1 h2
      cases cs with
      | nil => cases m <;> rfl
      | cons c cs =>
          simp only [List.length_cons] at h1 h2
          cases m with
          | zero => omega
          | succ m =>
              simp only [tokensF]
              by_cases hc : c = ' '
              · rw [if_pos hc, if_pos hc]
                exact ih m cs (by omega) (by omega)
              · rw [if_neg hc, if_neg hc]
                have hd : (cs.dropWhile (fun x => decide (x ≠ ' '))).length
                    ≤ cs.length :=
                  (List.dropWhile_suffix (fun x => decide (x ≠ ' '))).length_le
                congr 1
                exact ih m _ (by omega) (by omega)

/-- The fuel of `replaceListF` is irrelevant once it covers the list
length. -/
theorem replaceListF_fuel (pat rep : List Char) :
    ∀ (n m : Nat) (cs : List Char), cs.length ≤ n → cs.length ≤ m →
      replaceListF pat rep n cs = replaceListF pat rep m cs := by
  intro n
  induction n with
  | zero =>
      intro m cs h1 h2
      rw [List.length_eq_zero.mp (Nat.le_zero.mp h1)]
      cases m <;> rfl
  | succ n ih =>
      intro m cs h1 h2
      cases cs with
      | nil => cases m <;> rfl
      | cons c cs =>
          simp only [List.length_cons] at h1 h2
          cases m with
          | zero => omega
          | succ m =>
              simp only [replaceListF]
              by_cases hp : pat.isPrefixOf (c :: cs) ∧ pat ≠ []
              · rw [if_pos hp, if_pos hp]
                have hpl : 1 ≤ pat.length := by
                  rcases pat with _ | ⟨p, ps⟩
                  · exact absurd rfl hp.2
                  · simp
                have hd : ((c :: cs).drop pat.length).length ≤ cs.length := by
                  simp only [List.length_drop, List.length_cons]
                  omega
                congr 1
                exact ih m _ (by omega) (by omega)
              · rw [if_neg hp, if_neg hp]
                congr 1
                exact ih m cs (by omega) (by omega)

theorem tokens_cons_space (cs : List Char) : tokens (' ' :: cs) = tokens cs := by
  unfold tokens
  simp [tokensF]

theorem tokens_cons_nonspace (c : Char) (cs : List Char) (h : ¬ c = ' ') :
    tokens (c :: cs)
      = (c :: cs.takeWhile (· ≠ ' ')) :: tokens (cs.dropWhile (· ≠ ' ')) := by
  unfold tokens
  simp only [List.length_cons, tokensF]
  rw [if_neg h]
  congr 1
  exact tokensF_fuel cs.length _ _
    (List.dropWhile_suffix (fun x => decide (x ≠ ' '))).length_le
    (Nat.le_refl _)

theorem replaceList_cons_patmatch (pat rep : List Char) (c : Char)
    (cs : List Char) (h : pat.isPrefixOf (c :: cs) ∧ pat ≠ []) :
    replaceList pat rep (c :: cs)
      = rep ++ replaceList pat rep ((c :: cs).drop pat.length) := by
  have hpl : 1 ≤ pat.length := by
    rcases pat with _ | ⟨p, ps⟩
    · exact absurd rfl h.2
    · simp
  unfold replaceList
  simp only [List.length_cons, replaceListF]
  rw [if_pos h]
  congr 1
  refine replaceListF_fuel pat rep cs.length _ _ ?_ (Nat.le_refl _)
  simp only [List.length_drop, List.length_cons]
  omega

theorem replaceList_cons_nomatch (pat rep : List Char) (c : Char)
    (cs : List Char) (h : ¬ (pat.isPrefixOf (c :: cs) ∧ pat ≠ [])) :
    replaceList pat rep (c :: cs) = c :: replaceList pat rep cs := by
  unfold replaceList
  simp only [List.length_cons, replaceListF]
  rw [if_neg h]

theorem dropWhile_eq_self_of_takeWhile_nil {α : Type} (p : α → Bool)
    (l : List α) (h : l.takeWhile p = []) : l.dropWhile p = l := by
  cases l with
  | nil => rfl
  | cons a t =>
      by_cases hp : p a
      · rw [List.takeWhile_cons, if_pos hp] at h
        simp at h
      · rw [List.dropWhile_cons, if_neg hp]

theorem takeWhile_eq_pair {α : Type} (p : α → Bool) (l : List α) (x y : α)
    (h : l.takeWhile p = [x, y]) :
    ∃ l2, l = x :: y :: l2 ∧ l2.takeWhile p = [] ∧ p x ∧ p y := by
  cases l with
  | nil => simp at h
  | cons a t =>
      by_cases hp : p a
      · rw [List.takeWhile_cons, if_pos hp] at h
        injection h with h1 h2
        subst h1
        cases t with
        | nil => simp at h2
        | cons b t2 =>
            by_cases hq : p b
            · rw [List.takeWhile_cons, if_pos hq] at h2
              injection h2 with h3 h4
              subst h3
              exact ⟨t2, rfl, h4, hp, hq⟩
            · rw [List.takeWhile_cons, if_neg hq] at h2
              simp at h2
      · rw [List.takeWhile_cons, if_neg hp] at h
        simp at h

/-- A non-space character of a string lies inside one of its
whitespace-separated tokens. -/
theorem mem_tokens_of_mem :
    ∀ (n : Nat) (cs : List Char), cs.length ≤ n →
      ∀ c ∈ cs, ¬ c = ' ' → ∃ t ∈ tokens cs, c ∈ t := by
  intro n
  induction n with
  | zero =>
      intro cs hlen c hc
      rw [List.length_eq_zero.mp (Nat.le_zero.mp hlen)] at hc
      simp at hc
  | succ n ih =>
      intro cs hlen c hc hcs
      cases cs with
      | nil => simp at hc
      | cons a rest =>
          by_cases ha : a = ' '
          · subst ha
            rw [tokens_cons_space]
            have hc' : c ∈ rest := by
              rcases List.mem_cons.mp hc with h | h
              · exact absurd h hcs
              · exact h
            refine ih rest ?_ c hc' hcs
            simp only [List.length_cons] at hlen
            omega
          · rw [tokens_cons_nonspace a rest ha]
            rcases List.mem_cons.mp hc with h | h
            · subst h
              exact ⟨c :: rest.takeWhile (· ≠ ' '), List.mem_cons_self _ _,
                List.mem_cons_self _ _⟩
            · have hsplit := List.takeWhile_append_dropWhile
                (fun x => decide (x ≠ ' ')) rest
              have hor : c ∈ rest.takeWhile (· ≠ ' ') ∨
                  c ∈ rest.dropWhile (· ≠ ' ') := by
                rw [← List.mem_append, hsplit]
                exact h
              rcases hor with h2 | h2
              · exact ⟨a :: rest.takeWhile (· ≠ ' '), List.mem_cons_self _ _,
                  List.mem_cons_of_mem a h2⟩
              · have hlen2 : (rest.dropWhile (· ≠ ' ')).length ≤ n := by
                  have hle : (rest.dropWhile (fun x => decide (x ≠ ' '))).length
                      ≤ rest.length :=
                    (List.dropWhile_suffix (fun x => decide (x ≠ ' '))).length_le
                  simp only [List.length_cons] at hlen
                  omega
                rcases ih (rest.dropWhile (· ≠ ' ')) hlen2 c h2 hcs with
                  ⟨t, ht, hct⟩
                exact ⟨t, List.mem_cons_of_mem _ ht, hct⟩

/-- Replacing " \"" by " " does nothing to a string without quote
characters. -/
theorem replaceList_quote_eq_self :
    ∀ (n : Nat) (cs : List Char), cs.length ≤ n → '"' ∉ cs →
      replaceList [' ', '"'] [' '] cs = cs := by
  intro n
  induction n with
  | zero =>
      intro cs hlen hq
      rw [List.length_eq_zero.mp (Nat.le_zero.mp hlen)]
      simp [replaceList, replaceListF]
  | succ n ih =>
      intro cs hlen hq
      cases cs with
      | nil => simp [replaceList, replaceListF]
      | cons a rest =>
          rw [replaceList_cons_nomatch]
          · have hlen2 : rest.length ≤ n := by
              simp only [List.length_cons] at hlen
              omega
            rw [ih rest hlen2 (fun h => hq (List.mem_cons_of_mem _ h))]
          · rintro ⟨hpre, -⟩
            rcases rest with _ | ⟨b, rest2⟩
            · simp [List.isPrefixOf] at hpre
            · have hab : ' ' = a ∧ '"' = b := by
                simpa [List.isPrefixOf] using hpre
              exact hq (by simp [← hab.2])

/-- If every token of a string is the literal "nan", then removing every
"nan" occurrence leaves only spaces. -/
theorem replaceList_nan_all_space :
    ∀ (n : Nat) (cs : List Char), cs.length ≤ n →
      (∀ t ∈ tokens cs, t = ['n', 'a', 'n']) →
      ∀ c ∈ replaceList ['n', 'a', 'n'] [] cs, c = ' ' := by
  intro n
  induction n with
  | zero =>
      intro cs hlen htok c hc
      rw [List.length_eq_zero.mp (Nat.le_zero.mp hlen)] at hc
      simp [replaceList, replaceListF] at hc
  | succ n ih =>
      intro cs hlen htok c hc
      cases cs with
      | nil => simp [replaceList, replaceListF] at hc
      | cons a rest =>
          by_cases ha : a = ' '
          · subst ha
            rw [replaceList_cons_nomatch] at hc
            · rcases List.mem_cons.mp hc with h | h
              · exact h
              · have hlen2 : rest.length ≤ n := by
                  simp only [List.length_cons] at hlen
                  omega
                refine ih rest hlen2 ?_ c h
                intro t ht
                exact htok t (by rwa [tokens_cons_space])
            · rintro ⟨hpre, -⟩
              simp [List.isPrefixOf] at hpre
          · have hfirst : a :: rest.takeWhile (· ≠ ' ') = ['n', 'a', 'n'] := by
              refine htok _ ?_
              rw [tokens_cons_nonspace a rest ha]
              simp
            injection hfirst with h1 h2
            subst h1
            rcases takeWhile_eq_pair _ rest 'a' 'n' h2 with
              ⟨cs2, hrest, htw, -, -⟩
            subst hrest
            have hdw : (('a' :: 'n' :: cs2).dropWhile (· ≠ ' ')) = cs2 := by
              rw [List.dropWhile_cons, if_pos (by decide),
                List.dropWhile_cons, if_pos (by decide)]
              exact dropWhile_eq_self_of_takeWhile_nil _ _ htw
            have htok2 : ∀ t ∈ tokens cs2, t = ['n', 'a', 'n'] := by
              intro t ht
              refine htok t ?_
              rw [tokens_cons_nonspace _ _ ha, hdw]
              simp [ht]
            rw [replaceList_cons_patmatch] at hc
            · simp only [List.nil_append] at hc
              have hdrop :
                  (('n' :: 'a' :: 'n' :: cs2).drop
                    (['n', 'a', 'n'] : List Char).length) = cs2 := rfl
              rw [hdrop] at hc
              refine ih cs2 ?_ htok2 c hc
              simp only [List.length_cons] at hlen
              omega
            · constructor
              · simp [List.isPrefixOf]
              · simp

theorem tokens_all_space (cs : List Char) (h : ∀ c ∈ cs, c = ' ') :
    tokens cs = [] := by
  induction cs with
  | nil => rfl
  | cons a t ih =>
      have ha : a = ' ' := h a (by simp)
      subst ha
      rw [tokens_cons_space]
      exact ih (fun c hc => h c (by simp [hc]))

/-- A waveform cell whose tokens are all the literal "nan" (which
covers cells with no tokens at all) decodes to the empty sequence. -/
theorem decodeWave_all_nan (s : String)
    (h : ∀ t ∈ tokens s.data, t = ['n', 'a', 'n']) : decodeWave s = [] := by
  have hq : '"' ∉ s.data := by
    intro hmem
    rcases mem_tokens_of_mem s.data.length s.data (Nat.le_refl _) '"' hmem
      (by decide) with ⟨t, ht, hct⟩
    rw [h t ht] at hct
    simp at hct
  unfold decodeWave sanitizeWave
  rw [replaceList_quote_eq_self s.data.length s.data (Nat.le_refl _) hq]
  rw [tokens_all_space]
  · rfl
  · exact replaceList_nan_all_space s.data.length s.data (Nat.le_refl _) h

/-- C6: a waveform cell whose text holds only "nan" tokens (or no
tokens at all) decodes to the empty numeric sequence, and every derived
`{column}_{statistic}` cell of that row is the missing marker — in
particular never zero. -/
theorem waveform_all_nan_stats_missing (features : List (List ℚ → ℚ))
    (r : TsRow)
    (h : ∀ w ∈ r.waves, ∀ t ∈ tokens w.data, t = ['n', 'a', 'n']) :
    (∀ w ∈ r.waves, decodeWave w = []) ∧
    (∀ v ∈ (formatWaveFormRow features r).fields.drop r.fields.length,
      v = none ∧ v ≠ some 0) := by
  constructor
  · intro w hw
    exact decodeWave_all_nan w (h w hw)
  · intro v hv
    have hfields : (formatWaveFormRow features r).fields.drop r.fields.length
        = derivedWaveCells features r.waves := by
      unfold formatWaveFormRow
      simp [List.drop_append]
    rw [hfields] at hv
    unfold derivedWaveCells at hv
    rcases List.mem_flatMap.mp hv with ⟨w, hw, hvw⟩
    rcases List.mem_map.mp hvw with ⟨f, hf, rfl⟩
    rw [decodeWave_all_nan w (h w hw)]
    exact ⟨rfl, by simp [applyWaveStat]⟩

/-- Witness for C6 at a concrete all-"nan" row. -/
theorem waveform_all_nan_stats_missing_witness :
    ((∀ w ∈ (["nan nan", ""] : List String), ∀ t ∈ tokens w.data,
        t = ['n', 'a', 'n']) ∧
      (∀ w ∈ (["nan nan", ""] : List String),
        decodeWave w = [])) ∧
    (∀ v ∈ (formatWaveFormRow [fun xs => xs.sum]
        ⟨3, some 1, "a", [some 2], ["nan nan", ""]⟩).fields.drop 1,
      v = none ∧ v ≠ some 0) :=
  ⟨⟨by decide,
    (waveform_all_nan_stats_missing [fun xs => xs.sum]
      ⟨3, some 1, "a", [some 2], ["nan nan", ""]⟩ (by decide)).1⟩,
    (waveform_all_nan_stats_missing [fun xs => xs.sum]
      ⟨3, some 1, "a", [some 2], ["nan nan", ""]⟩ (by decide)).2⟩

/-! ## C7 -/

theorem zip_getD {α β : Type} (d1 : α) (d2 : β) :
    ∀ (a : List α) (b : List β) (i : Nat), i < a.length → i < b.length →
      (a.zip b).getD i (d1, d2) = (a.getD i d1, b.getD i d2) := by
  intro a
  induction a with
  | nil =>
      intro b i h1 h2
      simp at h1
  | cons x xs ih =>
      intro b i h1 h2
      cases b with
      | nil => simp at h2
      | cons y ys =>
          cases i with
          | zero => rfl
          | succ n =>
              simp only [List.zip_cons_cons, List.getD_cons_succ]
              exact ih ys n (by simpa using h1) (by simpa using h2)

theorem getD_map_lt {α β : Type} (f : α → β) (d : β) (d0 : α) :
    ∀ (l : List α) (i : Nat), i < l.length →
      (l.map f).getD i d = f (l.getD i d0) := by
  intro l
  induction l with
  | nil =>
      intro i h
      simp at h
  | cons x xs ih =>
      intro i h
      cases i with
      | zero => rfl
      | succ n => simpa using ih n (by simpa using h)

theorem getD_range (n i : Nat) (h : i < n) : (List.range n).getD i 0 = i := by
  show ((List.range n).get? i).getD 0 = i
  rw [List.get?_range h]
  rfl

theorem length_interpolateLinear (vs : List (Option ℚ)) :
    (interpolateLinear vs).length = vs.length := by
  simp [interpolateLinear]

theorem interpolateLinear_getD (vs : List (Option ℚ)) (i : Nat)
    (h : i < vs.length) :
    (interpolateLinear vs).getD i none = interpAt vs i := by
  unfold interpolateLinear
  rw [getD_map_lt (interpAt vs) none 0 (List.range vs.length) i
    (by simpa using h)]
  rw [getD_range vs.length i h]

/-- What a successful `prevValid` means: a nearer-than-`i` position
holding a present value. -/
theorem prevValid_spec (vs : List (Option ℚ)) (i j : Nat) (a : ℚ)
    (h : prevValid vs i = some (j, a)) :
    j < i ∧ vs.getD j none = some a := by
  unfold prevValid at h
  have hmem := mem_of_head?_eq_some h
  rcases List.mem_filterMap.mp hmem with ⟨j2, hj2, hmap⟩
  cases hv : vs.getD j2 none with
  | none =>
      rw [hv] at hmap
      simp at hmap
  | some c =>
      rw [hv] at hmap
      simp only [Option.map_some', Option.some.injEq, Prod.mk.injEq] at hmap
      obtain ⟨rfl, rfl⟩ := hmap
      exact ⟨List.mem_range.mp (List.mem_reverse.mp hj2), hv⟩

/-- What a successful `nextValid` means: a later-than-`i` position
holding a present value. -/
theorem nextValid_spec (vs : List (Option ℚ)) (i k : Nat) (b : ℚ)
    (h : nextValid vs i = some (k, b)) :
    i < k ∧ vs.getD k none = some b := by
  unfold nextValid at h
  have hmem := mem_of_head?_eq_some h
  rcases List.mem_filterMap.mp hmem with ⟨d, hd, hmap⟩
  cases hv : vs.getD (i + 1 + d) none with
  | none =>
      rw [hv] at hmap
      simp at hmap
  | some c =>
      rw [hv] at hmap
      simp only [Option.map_some', Option.some.injEq, Prod.mk.injEq] at hmap
      obtain ⟨rfl, rfl⟩ := hmap
      exact ⟨by omega, hv⟩

/-- A convex combination of two rationals stays within their min and
max. -/
theorem interp_between (a b r : ℚ) (h0 : 0 ≤ r) (h1 : r ≤ 1) :
    min a b ≤ a + (b - a) * r ∧ a + (b - a) * r ≤ max a b := by
  rcases le_total a b with hab | hab
  · rw [min_eq_left hab, max_eq_right hab]
    constructor <;> nlinarith
  · rw [min_eq_right hab, max_eq_left hab]
    constructor <;> nlinarith

/-- C7 counterexample: for the cleaned series with a value at second 0
and a missing reading at second 3, resampling to 2-second buckets gives
a trailing empty bucket, and `resample(..., interp_missing=True)` fills
it with the last observed value instead of leaving it missing — pandas
`interpolate` default direction is forward, so the code extrapolates
past the last non-missing bucket. -/
theorem resample_interp_extrapolates_counterexample :
    (resampleMean [((0 : Nat), some (1 : ℚ)), (3, none)] 2
      = [(0, some 1), (2, none)]) ∧
    (nextValid [some (1 : ℚ), none] 1 = none) ∧
    (resample [((0 : Nat), some (1 : ℚ)), (3, none)] 2 true
      = [(0, some 1), (2, some 1)]) := by
  have hr : resampleMean [((0 : Nat), some (1 : ℚ)), (3, none)] 2
      = [(0, some 1), (2, none)] := by
    norm_num [resampleMean, bucketVals, meanQ, List.range_succ,
      List.filterMap_cons, List.filterMap_nil]
  refine ⟨hr, by decide, ?_⟩
  unfold resample
  rw [if_pos rfl, hr]
  norm_num [interpolateLinear, List.range_succ, interpAt, prevValid,
    nextValid]

/-- C7 amended: with interpolation enabled, an empty bucket bracketed by
observed buckets receives a value within their `[min, max]`; an empty
bucket before the first observed bucket stays missing; an empty bucket
after the last observed bucket is filled with the last observed value
(forward fill), not left missing. -/
theorem resample_interpolation_bounds (s : List (Nat × Option ℚ))
    (iv i : Nat) (hi : i < (resampleMean s iv).length)
    (he : ((resampleMean s iv).map Prod.snd).getD i none = none) :
    match prevValid ((resampleMean s iv).map Prod.snd) i,
          nextValid ((resampleMean s iv).map Prod.snd) i with
    | some ja, some kb =>
        ∃ x, ((resample s iv true).getD i (0, none)).2 = some x ∧
          min ja.2 kb.2 ≤ x ∧ x ≤ max ja.2 kb.2
    | some ja, none =>
        ((resample s iv true).getD i (0, none)).2 = some ja.2
    | none, _ => ((resample s iv true).getD i (0, none)).2 = none := by
  have hsnd : ((resample s iv true).getD i (0, none)).2
      = interpAt ((resampleMean s iv).map Prod.snd) i := by
    unfold resample
    rw [if_pos rfl]
    rw [zip_getD 0 none ((resampleMean s iv).map Prod.fst)
      (interpolateLinear ((resampleMean s iv).map Prod.snd)) i
      (by simpa using hi)
      (by rw [length_interpolateLinear]; simpa using hi)]
    exact interpolateLinear_getD _ i (by simpa using hi)
  have hinterp : interpAt ((resampleMean s iv).map Prod.snd) i
      = match prevValid ((resampleMean s iv).map Prod.snd) i,
              nextValid ((resampleMean s iv).map Prod.snd) i with
        | some (j, a), some (k, b) =>
            some (a + (b - a) * (((i : ℚ) - (j : ℚ)) / ((k : ℚ) - (j : ℚ))))
        | some (_, a), none => some a
        | none, _ => none := by
    unfold interpAt
    rw [he]
  rcases hp : prevValid ((resampleMean s iv).map Prod.snd) i with _ | ⟨j, a⟩
  · simp only
    rw [hsnd, hinterp, hp]
  · rcases hn : nextValid ((resampleMean s iv).map Prod.snd) i with _ | ⟨k, b⟩
    · simp only
      rw [hsnd, hinterp, hp, hn]
    · simp only
      rcases prevValid_spec _ i j a hp with ⟨hji, -⟩
      rcases nextValid_spec _ i k b hn with ⟨hik, -⟩
      refine ⟨a + (b - a) * (((i : ℚ) - (j : ℚ)) / ((k : ℚ) - (j : ℚ))), ?_, ?_, ?_⟩
      · rw [hsnd, hinterp, hp, hn]
      · have hr0 : (0 : ℚ) ≤ ((i : ℚ) - (j : ℚ)) / ((k : ℚ) - (j : ℚ)) := by
          apply div_nonneg
          · have : (j : ℚ) < (i : ℚ) := by exact_mod_cast hji
            linarith
          · have : (i : ℚ) < (k : ℚ) := by exact_mod_cast hik
            have : (j : ℚ) < (i : ℚ) := by exact_mod_cast hji
            linarith
        have hr1 : ((i : ℚ) - (j : ℚ)) / ((k : ℚ) - (j : ℚ)) ≤ 1 := by
          rw [div_le_one]
          · have : (i : ℚ) < (k : ℚ) := by exact_mod_cast hik
            linarith
          · have h1 : (j : ℚ) < (i : ℚ) := by exact_mod_cast hji
            have h2 : (i : ℚ) < (k : ℚ) := by exact_mod_cast hik
            linarith
        exact (interp_between a b _ hr0 hr1).1
      · have hr0 : (0 : ℚ) ≤ ((i : ℚ) - (j : ℚ)) / ((k : ℚ) - (j : ℚ)) := by
          apply div_nonneg
          · have : (j : ℚ) < (i : ℚ) := by exact_mod_cast hji
            linarith
          · have h1 : (j : ℚ) < (i : ℚ) := by exact_mod_cast hji
            have h2 : (i : ℚ) < (k : ℚ) := by exact_mod_cast hik
            linarith
        have hr1 : ((i : ℚ) - (j : ℚ)) / ((k : ℚ) - (j : ℚ)) ≤ 1 := by
          rw [div_le_one]
          · have : (i : ℚ) < (k : ℚ) := by exact_mod_cast hik
            linarith
          · have h1 : (j : ℚ) < (i : ℚ) := by exact_mod_cast hji
            have h2 : (i : ℚ) < (k : ℚ) := by exact_mod_cast hik
            linarith
        exact (interp_between a b _ hr0 hr1).2

/-- Witness for the amended C7 at a concrete series with an interior
gap. -/
theorem resample_interpolation_bounds_witness :
    (1 < (resampleMean [((0 : Nat), some (1 : ℚ)), (5, some 3)] 2).length) ∧
    (((resampleMean [((0 : Nat), some (1 : ℚ)), (5, some 3)] 2).map
        Prod.snd).getD 1 none = none) ∧
    (∃ x, ((resample [((0 : Nat), some (1 : ℚ)), (5, some 3)] 2 true).getD 1
        (0, none)).2 = some x ∧
      min (1 : ℚ) 3 ≤ x ∧ x ≤ max (1 : ℚ) 3) := by
  have hr : resampleMean [((0 : Nat), some (1 : ℚ)), (5, some 3)] 2
      = [(0, some 1), (2, none), (4, some 3)] := by
    norm_num [resampleMean, bucketVals, meanQ, List.range_succ,
      List.filterMap_cons, List.filterMap_nil]
  refine ⟨by rw [hr]; decide, by rw [hr]; decide, ?_⟩
  have h := resample_interpolation_bounds
    [((0 : Nat), some (1 : ℚ)), (5, some 3)] 2 1
    (by rw [hr]; decide) (by rw [hr]; decide)
  rw [hr] at h
  have hp : prevValid ([((0 : Nat), some (1 : ℚ)), (2, none),
      (4, some 3)].map Prod.snd) 1 = some (0, 1) := by decide
  have hn : nextValid ([((0 : Nat), some (1 : ℚ)), (2, none),
      (4, some 3)].map Prod.snd) 1 = some (2, 3) := by decide
  rw [hp, hn] at h
  simpa using h

/-! ## C10 -/

theorem getD_mem {α : Type} (d : α) :
    ∀ (l : List α) (i : Nat), i < l.length → l.getD i d ∈ l := by
  intro l
  induction l with
  | nil =>
      intro i h
      simp at h
  | cons x xs ih =>
      intro i h
      cases i with
      | zero => simp
      | succ n =>
          simp only [List.getD_cons_succ]
          exact List.mem_cons_of_mem x (ih n (by simpa using h))

theorem rowLookup_eq_none (r : List ((String × String) × Option ℚ))
    (k : String × String) (h : k ∉ r.map Prod.fst) : rowLookup r k = none := by
  unfold rowLookup
  cases hf : r.find? (fun p => p.1 = k) with
  | none => rfl
  | some p =>
      have hpred := List.find?_some hf
      have hmem := List.mem_of_find?_eq_some hf
      exact absurd (List.mem_map.mpr ⟨p, hmem, by simpa using hpred⟩) h

theorem concatOuter_cols (m : FeatureMatrix)
    (r : List ((String × String) × Option ℚ)) :
    (concatOuter m r).cols
      = m.cols ++ (r.map Prod.fst).filter (fun k => k ∉ m.cols) := rfl

theorem concatOuter_rows (m : FeatureMatrix)
    (r : List ((String × String) × Option ℚ)) :
    (concatOuter m r).rows
      = m.rows.map (fun row => row ++ List.replicate
          ((r.map Prod.fst).filter (fun k => k ∉ m.cols)).length none)
        ++ [(m.cols ++ (r.map Prod.fst).filter (fun k => k ∉ m.cols)).map
          (rowLookup r)] := rfl

/-- The invariant holds for the frame built from the first trip. -/
theorem matrixOfRow_inv (t : SummaryFrame2D) :
    MatrixInv (matrixOfRow (featurizeTrip t)) [t] := by
  refine ⟨?_, rfl, ?_, ?_⟩
  · intro k
    simp [matrixOfRow]
  · intro i hi
    have hi0 : i = 0 := by simp at hi; omega
    subst hi0
    simp [matrixOfRow]
  · intro i hi j hj hnot
    have hi0 : i = 0 := by simp at hi; omega
    subst hi0
    exfalso
    apply hnot
    show (matrixOfRow (featurizeTrip t)).cols.getD j ("", "")
      ∈ (featurizeTrip t).map Prod.fst
    have hm := getD_mem ("", "") (matrixOfRow (featurizeTrip t)).cols j hj
    simpa [matrixOfRow] using hm

/-- One `pd.concat` step preserves the invariant. -/
theorem concatOuter_inv (m : FeatureMatrix) (ps : List SummaryFrame2D)
    (t : SummaryFrame2D) (h : MatrixInv m ps) :
    MatrixInv (concatOuter m (featurizeTrip t)) (ps ++ [t]) := by
  obtain ⟨h1, h2, h3, h4⟩ := h
  have hkeys : ∀ u ∈ ps, ∀ k ∈ (featurizeTrip u).map Prod.fst, k ∈ m.cols :=
    fun u hu k hk => (h1 k).mpr ⟨u, hu, hk⟩
  refine ⟨?_, ?_, ?_, ?_⟩
  · intro k
    rw [concatOuter_cols]
    constructor
    · intro hk
      rcases List.mem_append.mp hk with hk1 | hk2
      · rcases (h1 k).mp hk1 with ⟨u, hu, hku⟩
        exact ⟨u, List.mem_append_left _ hu, hku⟩
      · exact ⟨t, List.mem_append_right _ (by simp),
          List.mem_of_mem_filter hk2⟩
    · rintro ⟨u, hu, hku⟩
      rcases List.mem_append.mp hu with hu1 | hu2
      · exact List.mem_append_left _ ((h1 k).mpr ⟨u, hu1, hku⟩)
      · have hut : u = t := by simpa using hu2
        subst hut
        by_cases hkc : k ∈ m.cols
        · exact List.mem_append_left _ hkc
        · exact List.mem_append_right _
            (List.mem_filter.mpr ⟨hku, by simpa using hkc⟩)
  · rw [concatOuter_rows]
    simp [h2]
  · intro i hi
    rw [concatOuter_rows, concatOuter_cols]
    simp only [List.length_append, List.length_singleton] at hi
    by_cases hilt : i < ps.length
    · rw [List.getD_append _ _ _ _ (by simpa [h2] using hilt)]
      rw [getD_map_lt _ [] [] m.rows i (by simpa [h2] using hilt)]
      simp only [List.length_append, List.length_replicate]
      rw [h3 i hilt]
    · have hieq : i = ps.length := by omega
      subst hieq
      rw [List.getD_append_right _ _ _ _ (by simp [h2])]
      simp [h2]
  · intro i hi j hj hnot
    rw [concatOuter_rows]
    simp only [List.length_append, List.length_singleton] at hi
    rw [concatOuter_cols] at hj
    simp only [List.length_append] at hj
    by_cases hilt : i < ps.length
    · -- an old row, padded with the missing marker under the new columns
      rw [List.getD_append _ _ _ _ (by simpa [h2] using hilt)]
      rw [getD_map_lt _ [] [] m.rows i (by simpa [h2] using hilt)]
      by_cases hjlt : j < m.cols.length
      · rw [List.getD_append _ _ _ _ (by rw [h3 i hilt]; exact hjlt)]
        refine h4 i hilt j hjlt ?_
        rw [concatOuter_cols] at hnot
        rw [List.getD_append _ _ _ _ hjlt] at hnot
        rw [List.getD_append _ _ _ _ hilt] at hnot
        exact hnot
      · rw [List.getD_append_right _ _ _ _ (by rw [h3 i hilt]; omega)]
        rw [h3 i hilt]
        simp only [List.getD_eq_getElem?_getD, List.getElem?_replicate]
        split <;> rfl
    · -- the freshly appended row: direct lookup in the new trip's
      -- feature row
      have hieq : i = ps.length := by omega
      subst hieq
      rw [List.getD_append_right _ _ _ _ (by simp [h2])]
      simp only [List.length_map, h2, Nat.sub_self, List.getD_cons_zero]
      rw [getD_map_lt _ none ("", "") _ j (by simpa using hj)]
      apply rowLookup_eq_none
      rw [concatOuter_cols] at hnot
      rw [List.getD_append_right _ _ _ _ (by simp)] at hnot
      simpa using hnot

/-- Running the accumulation loop from an invariant-satisfying state
extends the invariant over the remaining trips. -/
theorem featurizeLoop_inv :
    ∀ (ts : List SummaryFrame2D) (m : FeatureMatrix)
      (ps : List SummaryFrame2D), MatrixInv m ps →
      ∃ m2, featurizeLoop (some m) ts = some m2 ∧ MatrixInv m2 (ps ++ ts) := by
  intro ts
  induction ts with
  | nil =>
      intro m ps h
      exact ⟨m, rfl, by simpa using h⟩
  | cons t ts ih =>
      intro m ps h
      rcases ih (concatOuter m (featurizeTrip t)) (ps ++ [t])
        (concatOuter_inv m ps t h) with ⟨m2, hm2, hinv⟩
      refine ⟨m2, ?_, ?_⟩
      · simpa [featurizeLoop] using hm2
      · rwa [List.append_assoc] at hinv

/-- C10: for a non-empty list of summary tables, `featurize_trips`
returns a matrix whose column-key set is the union of the flattened
column sets of all inputs, with one aligned row per trip and the
missing-value marker wherever a trip lacks a (statistic, field) pair
(pandas `concat` outer join fills NaN there). -/
theorem featurize_trips_union_fill (ts : List SummaryFrame2D)
    (hne : ts ≠ []) :
    ∃ m, featurizeTrips ts = some m ∧
      (∀ k, k ∈ m.cols ↔ ∃ u ∈ ts, k ∈ (featurizeTrip u).map Prod.fst) ∧
      m.rows.length = ts.length ∧
      (∀ i, i < ts.length → (m.rows.getD i []).length = m.cols.length) ∧
      (∀ i, i < ts.length → ∀ j, j < m.cols.length →
        m.cols.getD j ("", "")
          ∉ (featurizeTrip (ts.getD i emptyFrame)).map Prod.fst →
        (m.rows.getD i []).getD j none = none) := by
  rcases ts with _ | ⟨t, rest⟩
  · exact absurd rfl hne
  · rcases featurizeLoop_inv rest (matrixOfRow (featurizeTrip t)) [t]
      (matrixOfRow_inv t) with ⟨m2, hm2, hinv⟩
    obtain ⟨h1, h2, h3, h4⟩ := hinv
    refine ⟨⟨m2.cols, m2.rows, List.range (t :: rest).length⟩,
      ?_, h1, h2, h3, h4⟩
    unfold featurizeTrips
    simp only [featurizeLoop]
    rw [hm2]

/-- Witness for C10 at two concrete one-cell summary tables with
different fields. -/
theorem featurize_trips_union_fill_witness :
    (([⟨["x"], ["mean"], [[some 1]]⟩, ⟨["y"], ["mean"], [[some 5]]⟩]
        : List SummaryFrame2D) ≠ []) ∧
    (∃ m, featurizeTrips
        [⟨["x"], ["mean"], [[some 1]]⟩, ⟨["y"], ["mean"], [[some 5]]⟩]
        = some m ∧
      (∀ k, k ∈ m.cols ↔ ∃ u ∈ ([⟨["x"], ["mean"], [[some 1]]⟩,
          ⟨["y"], ["mean"], [[some 5]]⟩] : List SummaryFrame2D),
        k ∈ (featurizeTrip u).map Prod.fst) ∧
      m.rows.length = 2 ∧
      (∀ i, i < 2 → (m.rows.getD i []).length = m.cols.length) ∧
      (∀ i, i < 2 → ∀ j, j < m.cols.length →
        m.cols.getD j ("", "")
          ∉ (featurizeTrip (([⟨["x"], ["mean"], [[some 1]]⟩,
              ⟨["y"], ["mean"], [[some 5]]⟩]
            : List SummaryFrame2D).getD i emptyFrame)).map Prod.fst →
        (m.rows.getD i []).getD j none = none)) :=
  ⟨by decide,
    featurize_trips_union_fill
      [⟨["x"], ["mean"], [[some 1]]⟩, ⟨["y"], ["mean"], [[some 5]]⟩]
      (by decide)⟩

end Cats
